import Mathlib

/-!
# Verification of the serac archive engine

A shallow embedding of the core of the serac incremental archiver
(`serac/index/models.py`, `serac/index/index.py`, `serac/storage/base.py`,
`serac/storage/s3.py`, `serac/crypto.py`) together with proofs of the
behavioural properties stated in its specification.

Filesystem paths are modelled as lists of path components (the part of a
`pathlib.Path` below the root); databases as explicit record states; the
per-file progress reporter as a trace of events.
-/

namespace Serac

/-- A filesystem path, as its list of components below the root:
`/src/dir/three.txt` is `["src", "dir", "three.txt"]`. -/
abbrev FsPath := List String

/-- `pathlib.Path.parents`: every strict ancestor of the path, from the root
down (order is irrelevant, only membership is used). -/
def parents (p : FsPath) : List FsPath :=
  (List.range p.length).map (fun k => p.take k)

/-- `pathlib.Path.name`: the final component (empty for the root). -/
def basename (p : FsPath) : String :=
  p.getLastD ""

/-- `models.Action`: classification of a `File` event. -/
inductive Action where
  | ADD
  | CONTENT
  | METADATA
  | DELETE
deriving DecidableEq, Repr

/-- `models.Archived`: a stored blob record — `id` (assigned at row
creation, the backend object key), `hash` (hex sha256 of the plaintext,
empty for a poison tombstone) and plaintext `size`. -/
structure Archived where
  id : Nat
  hash : String
  size : Int
deriving DecidableEq, Repr

/-- `models.File`: one observed state of a path. `id` is `none` until the
row is inserted; `archived` is `none` until the blob reference is set
(`peewee` raises on access before then). `size` models the `size`
property, populated from `stat` or from `archived`. -/
structure File where
  id : Option Nat := none
  path : FsPath
  archived : Option Archived := none
  action : Action
  last_modified : Int
  owner : Int
  group : Int
  permissions : Int
  size : Int
deriving DecidableEq, Repr

/-- `File._meta_fields`: the attributes compared by `File.__eq__` —
`last_modified`, `owner`, `group`, `permissions` and the cached `size`
property. -/
def File.meta_fields : List (File → Int) :=
  [fun f => f.last_modified,
   fun f => f.owner,
   fun f => f.group,
   fun f => f.permissions,
   fun f => f.size]

/-- `File.__eq__`: same path, and every attribute in `_meta_fields`
agrees. -/
def fileEq (a b : File) : Bool :=
  a.path == b.path && File.meta_fields.all (fun attr => attr a == attr b)

/-- `str(file.path)`: render a path for the reporter. -/
def pathStr (p : FsPath) : String :=
  "/" ++ String.intercalate "/" p

/-- The index database: the `Archived` and `File` tables together with the
autoincrement counters the ORM maintains for their integer primary keys. -/
structure Db where
  archived_rows : List Archived := []
  file_rows : List File := []
  next_archived_id : Nat := 1
  next_file_id : Nat := 1
deriving DecidableEq, Repr

/-- The errors raised by the embedded code paths. The source raises plain
`ValueError`s for the first three; the spec names them `AlreadyArchived`,
`ArchiveFailed` and `BadTimestamp`. `typeError` models a Python
`TypeError` (a required positional argument missing at a call site). -/
inductive SeracError where
  | alreadyArchived
  | archiveFailed
  | badTimestamp
  | fileExists
  | notFound
  | archiveEmpty
  | objectFrozen
  | objectRetrieving
  | typeError
  | wrongPassword
  | truncated
  | unknownRestoreState
deriving DecidableEq, Repr

/-- `Model.save`: insert the row when it has no primary key yet (assigning
the next id), otherwise update the existing row in place. -/
def File.save (f : File) (db : Db) : Db :=
  match f.id with
  | none =>
      { db with
        file_rows := db.file_rows ++ [{ f with id := some db.next_file_id }],
        next_file_id := db.next_file_id + 1 }
  | some i =>
      { db with file_rows := db.file_rows.map (fun g => if g.id = some i then f else g) }

/-- `File.archive`: push one file to the archive. `hashOf` models
`calculate_hash` (sha256 of the bytes on disk at the path); `storeOk`
models whether `storage.store` succeeds for the given local path.
Mirrors the source: refuse a `File` that already has an id; create the
`Archived` row before the upload; on upload failure blank its hash and
keep it, insert no `File` row, and raise; on success link it and save
the `File` row. Returns the new database and the raised error, if any. -/
def File.archive (f : File) (hashOf : FsPath → String) (storeOk : FsPath → Bool)
    (db : Db) : Db × Option SeracError :=
  if f.id.isSome then
    (db, some .alreadyArchived)
  else
    let archived : Archived :=
      { id := db.next_archived_id, hash := hashOf f.path, size := f.size }
    let db1 : Db :=
      { db with
        archived_rows := db.archived_rows ++ [archived],
        next_archived_id := db.next_archived_id + 1 }
    if storeOk f.path then
      (File.save { f with archived := some archived } db1, none)
    else
      ({ db1 with archived_rows := db.archived_rows ++ [{ archived with hash := "" }] },
        some .archiveFailed)

/-- `index.Changeset`: the four path-keyed mappings produced by a scan. -/
structure Changeset where
  added : List (FsPath × File) := []
  content : List (FsPath × File) := []
  metadata : List (FsPath × File) := []
  deleted : List (FsPath × File) := []
deriving DecidableEq, Repr

/-- One call on a per-file `Reporter`: construction with an initial
status, `update`, or `complete`. The reporter trace is the observable
record of what was reported. -/
inductive RepEvent where
  | start (file : String) (status : String)
  | update (file : String) (status : String)
  | complete (file : String) (status : String)
deriving DecidableEq, Repr

/-- The first loop of `Changeset.commit`: save every file in
`metadata ∪ deleted`, reporting "updating" then "updated". -/
def commitStep1 (cs : Changeset) (db : Db) : Db × List RepEvent :=
  (cs.metadata.map Prod.snd ++ cs.deleted.map Prod.snd).foldl
    (fun acc f =>
      (File.save f acc.1,
        acc.2 ++ [.start (pathStr f.path) "updating", .complete (pathStr f.path) "updated"]))
    (db, [])

/-- The second loop of `Changeset.commit`: archive every file in
`added ∪ content`. As in the source there is no exception handler around
`file.archive`, so the first error propagates out of the loop, with the
remaining files unprocessed and no completion reported for the failed
file. -/
def commitArchiveLoop (hashOf : FsPath → String) (storeOk : FsPath → Bool) :
    List File → Db → List RepEvent → Db × List RepEvent × Option SeracError
  | [], db, events => (db, events, none)
  | f :: rest, db, events =>
    let events1 := events ++ [.start (pathStr f.path) "archiving"]
    let res := File.archive f hashOf storeOk db
    match res.2 with
    | some e => (res.1, events1, some e)
    | none =>
        commitArchiveLoop hashOf storeOk rest res.1
          (events1 ++ [.complete (pathStr f.path) "archived"])

/-- `Changeset.commit`: metadata and delete events first, then the
archive loop over added and content. -/
def Changeset.commit (cs : Changeset) (hashOf : FsPath → String)
    (storeOk : FsPath → Bool) (db : Db) : Db × List RepEvent × Option SeracError :=
  let step1 := commitStep1 cs db
  commitArchiveLoop hashOf storeOk
    (cs.added.map Prod.snd ++ cs.content.map Prod.snd) step1.1 step1.2

/-- The database after the commit loop has archived a list of files in
order (the prefix it processes before hitting a failure). -/
def archiveAll (hashOf : FsPath → String) (storeOk : FsPath → Bool)
    (files : List File) (db : Db) : Db :=
  files.foldl (fun d g => (File.archive g hashOf storeOk d).1) db

/-- The reporter trace of archiving a list of files successfully: a
"archiving" start and an "archived" completion per file, in order. -/
def archiveEvents : List File → List RepEvent
  | [] => []
  | g :: rest =>
      .start (pathStr g.path) "archiving" ::
        .complete (pathStr g.path) "archived" :: archiveEvents rest

/-- A value passed where a timestamp is expected: an integer POSIX
timestamp, or a non-integer input such as a `datetime` (carried here as
its display string). -/
inductive Timestamp where
  | int (t : Int)
  | datetime (s : String)
deriving DecidableEq, Repr

/-- The distinct paths occurring among a list of rows (`GROUP BY path`;
result order is unspecified in the source query). -/
def pathsOf : List File → List FsPath
  | [] => []
  | r :: rest => if r.path ∈ pathsOf rest then pathsOf rest else r.path :: pathsOf rest

/-- The row a SQLite bare-column `MAX(last_modified)` group query selects
from a group: an element achieving the maximal `last_modified`. -/
def maxRow : List File → Option File
  | [] => none
  | r :: rest =>
      match maxRow rest with
      | none => some r
      | some m => if m.last_modified > r.last_modified then some m else some r

/-- The row the `State.at` query keeps for path `p`: the
`MAX(last_modified)` row of the group, dropped when its action is DELETE
(`HAVING action != DELETE` on the bare column). -/
def chosenRow (cands : List File) (p : FsPath) : Option File :=
  match maxRow (cands.filter (fun r => r.path == p)) with
  | none => none
  | some f => if f.action = .DELETE then none else some f

/-- The `{path: file}` entry contributed by path `p`, if any. -/
def entryFor (cands : List File) (p : FsPath) : Option (FsPath × File) :=
  (chosenRow cands p).map (fun f => (p, f))

/-- The `State.at` query for an integer timestamp over the `File` table:
restrict to rows with `last_modified ≤ t`, group by path, keep each
group's `MAX(last_modified)` row unless it is a DELETE. -/
def stateAtInt (t : Int) (rows : List File) : List (FsPath × File) :=
  let cands := rows.filter (fun r => r.last_modified ≤ t)
  (pathsOf cands).filterMap (entryFor cands)

/-- `State.at`: reject a non-integer timestamp (`ValueError` in the
source, `BadTimestamp` in the spec) before touching the table, otherwise
run the query. -/
def StateAt (timestamp : Timestamp) (rows : List File) :
    Except SeracError (List (FsPath × File)) :=
  match timestamp with
  | .datetime _ => .error .badTimestamp
  | .int t => .ok (stateAtInt t rows)

/-- `Pattern.match` for a pattern modelled as `none` (the empty pattern
`Pattern("")`) or `some q`: true when the pattern is empty, equals the
path, or is an ancestor directory of it. -/
def patternMatch (pat : Option FsPath) (p : FsPath) : Bool :=
  match pat with
  | none => true
  | some q => q == p || (parents p).contains q

/-- `index.search` for an integer timestamp: the state, filtered by the
pattern when a non-empty one is given. -/
def searchInt (t : Int) (pat : Option FsPath) (rows : List File) :
    List (FsPath × File) :=
  match pat with
  | none => stateAtInt t rows
  | some q => (stateAtInt t rows).filter (fun pf => patternMatch (some q) pf.1)

/-- `index.search`: `State.at` then the pattern filter. -/
def search (timestamp : Timestamp) (pat : Option FsPath) (rows : List File) :
    Except SeracError (List (FsPath × File)) :=
  match timestamp with
  | .datetime s => StateAt (.datetime s) rows
  | .int t => .ok (searchInt t pat rows)

/-- Assoc-list lookup: `Mapping.__getitem__` / `in` over a `{path: file}`
state. -/
def lookupA (l : List (FsPath × File)) (p : FsPath) : Option File :=
  match l with
  | [] => none
  | (q, f) :: rest => if q = p then some f else lookupA rest p

/-- `index.restore`: restore the files matching `pat` at `timestamp`
under `dest`. `destIsDir` models `destination_path.is_dir()`. Following
the source: reject non-integer timestamps; search; when the pattern's own
path is a key of the state and the destination is a directory, extend the
destination with the pattern's final component; then walk the state,
computing each matching file's target path (each file's retrieval is
modelled as succeeding, so the result maps each restored source path to
its target); raise when nothing was restored and `missing_ok` is unset. -/
def restore (timestamp : Timestamp) (rows : List File) (pat : Option FsPath)
    (dest : FsPath) (destIsDir : Bool) (missing_ok : Bool) :
    Except SeracError (List (FsPath × FsPath)) :=
  match timestamp with
  | .datetime _ => .error .badTimestamp
  | .int t =>
    let state := searchInt t pat rows
    let dest1 :=
      match pat with
      | some ap => if (lookupA state ap).isSome && destIsDir then dest ++ [basename ap] else dest
      | none => dest
    let restored := state.filterMap (fun pf =>
      match pat with
      | none => some (pf.1, dest1 ++ pf.1)
      | some ap =>
          if ap == pf.1 || (parents pf.1).contains ap then
            some (pf.1, dest1 ++ pf.1.drop ap.length)
          else none)
    if !missing_ok && restored.isEmpty then
      .error (if pat.isSome then .notFound else .archiveEmpty)
    else .ok restored

/-- What the scanner observes when it stats a regular file: the path and
the metadata `refresh_metadata_from_disk` collects from `stat`, plus the
sha256 of the file's bytes (what `calculate_hash` would return). -/
structure ScanEntry where
  path : FsPath
  last_modified : Int
  owner : Int
  group : Int
  permissions : Int
  size : Int
  hash : String
deriving DecidableEq, Repr

/-- The transient `File` the scanner builds for an entry
(`File(path=path)` followed by `refresh_metadata_from_disk`), with the
action assigned at classification time. -/
def entryFile (e : ScanEntry) (a : Action) : File :=
  { path := e.path, action := a, last_modified := e.last_modified, owner := e.owner,
    group := e.group, permissions := e.permissions, size := e.size }

/-- `file.archived.hash` for an index row. Rows loaded from the index
always carry their `Archived` reference (a required foreign key); the
`none` fallback is never reached for them. -/
def archivedHash (f : File) : String :=
  match f.archived with
  | some a => a.hash
  | none => ""

/-- `dict` assignment `d[p] = f`: replace the entry at the key, or append
a new one. -/
def insertA (l : List (FsPath × File)) (p : FsPath) (f : File) : List (FsPath × File) :=
  match l with
  | [] => [(p, f)]
  | (q, g) :: rest => if q = p then (p, f) :: rest else (q, g) :: insertA rest p f

/-- `dict.pop(p, None)`: drop the entry at the key, if present. -/
def removeA (l : List (FsPath × File)) (p : FsPath) : List (FsPath × File) :=
  match l with
  | [] => []
  | (q, g) :: rest => if q = p then rest else (q, g) :: removeA rest p

/-- The key set of a `{path: file}` mapping. -/
def keysOf (l : List (FsPath × File)) : List FsPath :=
  l.map Prod.fst

/-- The `File` recorded for a METADATA change: the fresh metadata with
the previous event's `Archived` carried forward. -/
def metaFile (e : ScanEntry) (prev : File) : File :=
  { entryFile e .METADATA with archived := prev.archived }

/-- The classification loop of `scan`, over the stream of regular-file
entries the include/exclude walk produces (directories and excluded paths
never reach classification). `state` is `last_state`, consumed by `pop`:
unknown path → ADD; metadata equal → ignore; hash changed → CONTENT;
otherwise METADATA carrying the previous `Archived` forward. Returns the
changeset under construction and the remaining state. -/
def scanLoop : List ScanEntry → List (FsPath × File) → Changeset →
    Changeset × List (FsPath × File)
  | [], state, cs => (cs, state)
  | e :: rest, state, cs =>
    match lookupA state e.path with
    | none =>
        scanLoop rest state
          { cs with added := insertA cs.added e.path (entryFile e .ADD) }
    | some prev =>
        let state1 := removeA state e.path
        if fileEq (entryFile e .ADD) prev then
          scanLoop rest state1 cs
        else if e.hash ≠ archivedHash prev then
          scanLoop rest state1
            { cs with content := insertA cs.content e.path (entryFile e .CONTENT) }
        else
          scanLoop rest state1
            { cs with metadata := insertA cs.metadata e.path (metaFile e prev) }

/-- `index.scan`: run the classification loop, then turn every path still
in the state into a DELETE clone (`File.clone` copies every field except
the primary key and overrides the action). -/
def scan (entries : List ScanEntry) (last_state : List (FsPath × File)) : Changeset :=
  let res := scanLoop entries last_state {}
  { res.1 with
    deleted := res.2.map (fun pf => (pf.1, { pf.2 with id := none, action := .DELETE })) }

/-- Key sets of two mappings are disjoint. -/
def disjointK (l1 l2 : List (FsPath × File)) : Prop :=
  ∀ p, p ∈ keysOf l1 → p ∉ keysOf l2

/-- The induction invariant of the scan loop: the three classification
mappings are pairwise disjoint and none of them mentions a path still
present in the remaining state. -/
def ScanInv (cs : Changeset) (state : List (FsPath × File)) : Prop :=
  disjointK cs.added cs.content ∧ disjointK cs.added cs.metadata ∧
    disjointK cs.content cs.metadata ∧ disjointK cs.added state ∧
    disjointK cs.content state ∧ disjointK cs.metadata state

/-! ### Crypto stream (pyAesCrypt is third-party; modelled from the spec) -/

/-- A plaintext or ciphertext byte. -/
abbrev Byte := Fin 256

/-- `crypto.BUFFER_SIZE`: the fixed 64 KiB I/O buffer. -/
def BUFFER_SIZE : Nat := 64 * 1024

/-- Reduce a natural number to a byte. -/
def natByte (n : Nat) : Byte := ⟨n % 256, Nat.mod_lt n (by decide)⟩

/-- Modelled from the spec: the password-derived keystream of the
third-party cipher (`pyAesCrypt`, not part of this repository; §4.1
describes a password-based symmetric stream cipher). -/
def keyByte (password : List Byte) (i : Nat) : Byte :=
  natByte (password.foldl (fun a b => a + b.val) 0 + i)

/-- Modelled from the spec: the cipher body — the byte stream combined
position-wise with the password-derived keystream. -/
def encBody (password : List Byte) : Nat → List Byte → List Byte
  | _, [] => []
  | i, b :: rest => (b + keyByte password i) :: encBody password (i + 1) rest

/-- Modelled from the spec: the inverse of `encBody`. -/
def decBody (password : List Byte) : Nat → List Byte → List Byte
  | _, [] => []
  | i, b :: rest => (b - keyByte password i) :: decBody password (i + 1) rest

/-- Modelled from the spec: the 32-byte MAC trailer over password and
plaintext (§6: "salt + HMAC trailer"). -/
def macOf (password data : List Byte) : List Byte :=
  List.replicate 32 (natByte (password.foldl (fun a b => a + b.val) 0 +
    data.foldl (fun a b => a + b.val) 0))

/-- Errors raised by the stream cipher (§4.1). -/
inductive CryptoError where
  | wrongPassword
  | truncated
deriving DecidableEq, Repr

/-- Modelled from the spec: `pyAesCrypt.encryptStream` — read the source
to EOF and write ciphertext plus MAC framing (§4.1). -/
def encryptStream (source password : List Byte) (bufferSize : Nat) : List Byte :=
  encBody password 0 source ++ macOf password source

/-- Modelled from the spec: `pyAesCrypt.decryptStream` — consume exactly
`srcSize` ciphertext bytes (failing with `Truncated` when the source
ends early), strip and check the MAC trailer (failing with
`WrongPassword` on mismatch), and emit the plaintext (§4.1). -/
def decryptStream (source password : List Byte) (bufferSize srcSize : Nat) :
    Except CryptoError (List Byte) :=
  if source.length < srcSize ∨ srcSize < 32 then
    .error .truncated
  else
    let c := source.take srcSize
    let body := c.take (srcSize - 32)
    let trailer := c.drop (srcSize - 32)
    let pt := decBody password 0 body
    if macOf password pt = trailer then .ok pt else .error .wrongPassword

/-- `crypto.encrypt`: delegate to the stream cipher with `BUFFER_SIZE`. -/
def encrypt (source password : List Byte) : List Byte :=
  encryptStream source password BUFFER_SIZE

/-- `crypto.decrypt`: delegate to the stream cipher with `BUFFER_SIZE`
and the caller-supplied `src_size`. -/
def decrypt (source password : List Byte) (src_size : Nat) :
    Except CryptoError (List Byte) :=
  decryptStream source password BUFFER_SIZE src_size

/-! ### Storage backends -/

/-- `s3.StorageClass`. -/
inductive StorageClass where
  | STANDARD
  | GLACIER
  | DEEP_ARCHIVE
deriving DecidableEq, Repr

/-- What the source distinguishes in an S3 object's `restore` metadata
header: a header containing `ongoing-request="true"`, one containing
`ongoing-request="false"`, or any other header string. -/
inductive RestoreHeader where
  | ongoingTrue
  | ongoingFalse
  | unknown
deriving DecidableEq, Repr

/-- An S3 object as seen by the availability check: its storage class
and its `restore` metadata, absent when no restore was ever requested. -/
structure S3Object where
  storage_class : StorageClass
  restore : Option RestoreHeader
deriving DecidableEq, Repr

/-- An observable backend/API operation performed during `retrieve`. -/
inductive BackendOp where
  | getSize (archive_id : Nat)
  | read (archive_id : Nat)
  | startRestore (bucket : String) (key : String) (days : Nat)
deriving DecidableEq, Repr

/-- `s3.RESTORE_DAYS`: number of days to restore a Glacier object for. -/
def RESTORE_DAYS : Nat := 1

/-- `S3.start_s3_restore`: the thaw request the source builds — with the
bucket name hard-coded to the literal "bucket-name" and the key derived
from the configured prefix and the archive id. -/
def S3.start_s3_restore (path : String) (archive_id : Nat) : BackendOp :=
  .startRestore "bucket-name" (path ++ "/" ++ toString archive_id) RESTORE_DAYS

/-- `S3.check_is_available` applied to an object, as the source computes
it when given its `archive_id` argument: hot objects are available;
Glacier objects fail `ObjectFrozen` with no restore metadata,
`ObjectRetrieving` while a restore is ongoing, and are available once
the restore completed; any other header is a `ValueError`. -/
def S3.check_is_available (obj : S3Object) : Except SeracError Bool :=
  if ¬ (obj.storage_class = .GLACIER ∨ obj.storage_class = .DEEP_ARCHIVE) then
    .ok true
  else
    match obj.restore with
    | none => .error .objectFrozen
    | some .ongoingTrue => .error .objectRetrieving
    | some .ongoingFalse => .ok true
    | some .unknown => .error .unknownRestoreState

/-- `Storage.retrieve` (the base class, used by `Local`): refuse an
existing target with `FileExists` before any backend call; otherwise
`get_size`, open a read handle, and stream through `decrypt` into the
new local file. The backend store is a map from archive id to stored
bytes; the result is the local file afterwards, the raised error if any,
and the trace of backend operations performed. -/
def Storage.retrieve (localFile : Option (List Byte)) (archive_id : Nat)
    (stored : Nat → List Byte) (password : List Byte) :
    Option (List Byte) × Option SeracError × List BackendOp :=
  if localFile.isSome then
    (localFile, some .fileExists, [])
  else
    match decrypt (stored archive_id) password (stored archive_id).length with
    | .ok pt => (some pt, none, [.getSize archive_id, .read archive_id])
    | .error .wrongPassword =>
        (some [], some .wrongPassword, [.getSize archive_id, .read archive_id])
    | .error .truncated =>
        (some [], some .truncated, [.getSize archive_id, .read archive_id])

/-- `S3.retrieve` as written in the source: refuse an existing target
with `FileExists` first; then evaluate `self.check_is_available()` —
called without its required `archive_id` argument, which in Python
raises `TypeError` before the availability logic runs. The
`except ObjectFrozen` clause does not catch a `TypeError`, so no thaw is
started and the error propagates; the availability flow and the
delegation to the base `retrieve` are unreachable. -/
def S3.retrieve (localFile : Option (List Byte)) (obj : S3Object) (archive_id : Nat)
    (stored : Nat → List Byte) (password : List Byte) :
    Option (List Byte) × Option SeracError × List BackendOp :=
  if localFile.isSome then
    (localFile, some .fileExists, [])
  else
    (localFile, some .typeError, [])

/-! ## Example values used to instantiate theorems -/

/-- A sample not-yet-persisted file. -/
def exFile1 : File :=
  { path := ["a"], action := .ADD, last_modified := 1, owner := 0, group := 0,
    permissions := 420, size := 1 }

/-- A second sample file at a different path. -/
def exFile2 : File :=
  { path := ["b"], action := .ADD, last_modified := 1, owner := 0, group := 0,
    permissions := 420, size := 1 }

/-- A changeset holding the two sample files as additions. -/
def exChangeset : Changeset :=
  { added := [(["a"], exFile1), (["b"], exFile2)] }

/-- A storage backend whose `store` fails exactly for path `/a`. -/
def exStoreFailA : FsPath → Bool := fun p => !(p == ["a"])

/-- A storage backend whose `store` fails exactly for path `/b`. -/
def exStoreFailB : FsPath → Bool := fun p => !(p == ["b"])

/-- A constant hashing oracle. -/
def exHash : FsPath → String := fun _ => "abc123"

/-- `exFile1` with a different size but identical other attributes. -/
def exFile1big : File := { exFile1 with size := 2 }

/-- A file living below directory `/a`, at `/a/x`. -/
def exFileAX : File := { exFile1 with path := ["a", "x"] }

/-- A scanned regular file at `/a` whose metadata and content hash both
differ from the prior state. -/
def exEntryA : ScanEntry :=
  { path := ["a"], last_modified := 2, owner := 0, group := 0,
    permissions := 420, size := 1, hash := "new" }

/-- A scanned regular file at `/b`, unknown to the prior state. -/
def exEntryB : ScanEntry :=
  { path := ["b"], last_modified := 2, owner := 0, group := 0,
    permissions := 420, size := 1, hash := "bbb" }

/-- The prior index row for `/a`, archived with hash "old". -/
def exFilePrev : File :=
  { id := some 1, path := ["a"], archived := some { id := 1, hash := "old", size := 1 },
    action := .ADD, last_modified := 1, owner := 0, group := 0,
    permissions := 420, size := 1 }

/-- The changeset scanned from visiting `/a` twice (overlapping
includes) against a prior state holding `/a`. -/
def exScanDup : Changeset := scan [exEntryA, exEntryA] [(["a"], exFilePrev)]

/-- A small event history over two paths: three events for `/a` (one
past the query time) and two for `/b`, the latest a DELETE. -/
def exRowsC3 : List File :=
  [{ exFile1 with last_modified := 1 },
   { exFile1 with last_modified := 5, action := .CONTENT },
   { exFile1 with last_modified := 20, action := .CONTENT },
   { exFile2 with last_modified := 1 },
   { exFile2 with last_modified := 3, action := .DELETE }]

/-! ## Theorems -/

/-! ### Helper lemmas on the `State.at` query -/

theorem maxRow_mem : ∀ {l : List File} {m : File}, maxRow l = some m → m ∈ l := by
  intro l
  induction l with
  | nil => intro m h; simp [maxRow] at h
  | cons r rest ih =>
      intro m h
      unfold maxRow at h
      cases hrec : maxRow rest with
      | none => rw [hrec] at h; simp at h; simp [h]
      | some m0 =>
          rw [hrec] at h
          by_cases hgt : m0.last_modified > r.last_modified
          · simp [hgt] at h
            exact List.mem_cons_of_mem _ (h ▸ ih hrec)
          · simp [hgt] at h
            simp [h]

theorem maxRow_isSome : ∀ {l : List File}, l ≠ [] → (maxRow l).isSome := by
  intro l h
  cases l with
  | nil => exact absurd rfl h
  | cons r rest =>
      unfold maxRow
      cases maxRow rest with
      | none => rfl
      | some m0 =>
          by_cases hgt : m0.last_modified > r.last_modified <;> simp [hgt]

theorem maxRow_ge : ∀ {l : List File} {m : File}, maxRow l = some m →
    ∀ g ∈ l, g.last_modified ≤ m.last_modified := by
  intro l
  induction l with
  | nil => intro m h; simp [maxRow] at h
  | cons r rest ih =>
      intro m h g hg
      unfold maxRow at h
      cases hrec : maxRow rest with
      | none =>
          rw [hrec] at h
          simp only [Option.some.injEq] at h
          subst h
          cases List.mem_cons.mp hg with
          | inl hgr => rw [hgr]
          | inr hgr =>
              exfalso
              have hne : rest ≠ [] := by
                intro hnil
                rw [hnil] at hgr
                simp at hgr
              have hs := maxRow_isSome hne
              rw [hrec] at hs
              simp at hs
      | some m0 =>
          rw [hrec] at h
          dsimp only [] at h
          by_cases hgt : m0.last_modified > r.last_modified
          · rw [if_pos hgt] at h
            simp only [Option.some.injEq] at h
            subst h
            cases List.mem_cons.mp hg with
            | inl hgr => rw [hgr]; exact le_of_lt hgt
            | inr hgr => exact ih hrec g hgr
          · rw [if_neg hgt] at h
            simp only [Option.some.injEq] at h
            subst h
            cases List.mem_cons.mp hg with
            | inl hgr => rw [hgr]
            | inr hgr => exact le_trans (ih hrec g hgr) (le_of_not_lt hgt)

theorem pathsOf_mem {p : FsPath} : ∀ {l : List File},
    p ∈ pathsOf l ↔ ∃ r ∈ l, r.path = p := by
  intro l
  induction l with
  | nil => simp [pathsOf]
  | cons r rest ih =>
      unfold pathsOf
      by_cases hmem : r.path ∈ pathsOf rest
      · rw [if_pos hmem, ih]
        constructor
        · rintro ⟨s, hs, hsp⟩
          exact ⟨s, List.mem_cons_of_mem _ hs, hsp⟩
        · rintro ⟨s, hs, hsp⟩
          rcases List.mem_cons.mp hs with h1 | h1
          · rw [h1] at hsp
            rw [hsp] at hmem
            exact ih.mp hmem
          · exact ⟨s, h1, hsp⟩
      · rw [if_neg hmem]
        rw [List.mem_cons, ih]
        constructor
        · rintro (h1 | ⟨s, hs, hsp⟩)
          · exact ⟨r, List.mem_cons_self r rest, h1.symm⟩
          · exact ⟨s, List.mem_cons_of_mem _ hs, hsp⟩
        · rintro ⟨s, hs, hsp⟩
          rcases List.mem_cons.mp hs with h1 | h1
          · exact Or.inl (by rw [← hsp, h1])
          · exact Or.inr ⟨s, h1, hsp⟩

theorem pathsOf_nodup : ∀ (l : List File), (pathsOf l).Nodup := by
  intro l
  induction l with
  | nil => simp [pathsOf]
  | cons r rest ih =>
      unfold pathsOf
      by_cases hmem : r.path ∈ pathsOf rest
      · rw [if_pos hmem]; exact ih
      · rw [if_neg hmem]; exact List.nodup_cons.mpr ⟨hmem, ih⟩

theorem lookupA_cons (q : FsPath) (f : File) (rest : List (FsPath × File)) (p : FsPath) :
    lookupA ((q, f) :: rest) p = if q = p then some f else lookupA rest p := rfl

theorem lookupA_entries (cands : List File) :
    ∀ {paths : List FsPath}, paths.Nodup → ∀ p : FsPath,
      lookupA (paths.filterMap (entryFor cands)) p =
        if p ∈ paths then (entryFor cands p).map Prod.snd else none := by
  intro paths
  induction paths with
  | nil => intro _ p; simp [lookupA]
  | cons q rest ih =>
      intro hnd p
      have hq : q ∉ rest := (List.nodup_cons.mp hnd).1
      have hrest := (List.nodup_cons.mp hnd).2
      cases hface : entryFor cands q with
      | none =>
          rw [List.filterMap_cons_none hface, ih hrest p]
          by_cases hpq : p = q
          · subst hpq
            rw [if_neg hq, if_pos (List.mem_cons_self p rest), hface]
            rfl
          · by_cases hpr : p ∈ rest
            · rw [if_pos hpr, if_pos (List.mem_cons_of_mem _ hpr)]
            · rw [if_neg hpr, if_neg (by simp [List.mem_cons, hpq, hpr])]
      | some e =>
          obtain ⟨f, hch, hef⟩ : ∃ f, chosenRow cands q = some f ∧ e = (q, f) := by
            unfold entryFor at hface
            cases hch : chosenRow cands q with
            | none => rw [hch] at hface; simp at hface
            | some f =>
                rw [hch] at hface
                simp only [Option.map_some', Option.some.injEq] at hface
                exact ⟨f, rfl, hface.symm⟩
          subst hef
          rw [List.filterMap_cons_some hface]
          by_cases hpq : p = q
          · subst hpq
            rw [lookupA_cons, if_pos rfl]
            rw [if_pos (List.mem_cons_self p rest)]
            unfold entryFor
            rw [hch]
            rfl
          · have hqp : ¬ q = p := fun h => hpq h.symm
            rw [lookupA_cons, if_neg hqp]
            rw [ih hrest p]
            by_cases hpr : p ∈ rest
            · rw [if_pos hpr, if_pos (List.mem_cons_of_mem _ hpr)]
            · rw [if_neg hpr, if_neg (by simp [List.mem_cons, hpq, hpr])]

/-- C3: for every list of `File` rows — with the source's own invariant
that no path has two events at the same `last_modified` — and every
integer timestamp `t`, `State.at` maps a path `p` to a row `f` exactly
when `f` is the row of `p` with maximal `last_modified` among the rows
with `last_modified ≤ t` and that chosen row is not a DELETE (a path
whose chosen row is a DELETE is omitted entirely); consequently
`search(t, empty pattern)` never contains a row with action DELETE. -/
theorem C3_state_at (t : Int) (rows : List File)
    (hnt : ∀ r ∈ rows, ∀ s ∈ rows, r.path = s.path →
      r.last_modified = s.last_modified → r = s) :
    (∀ p f, lookupA (stateAtInt t rows) p = some f ↔
      (f ∈ rows ∧ f.path = p ∧ f.last_modified ≤ t ∧ f.action ≠ .DELETE ∧
        ∀ g ∈ rows, g.path = p → g.last_modified ≤ t →
          g.last_modified ≤ f.last_modified)) ∧
    (∀ res, search (.int t) none rows = .ok res →
      ∀ pf ∈ res, pf.2.action ≠ .DELETE) := by
  constructor
  · intro p f
    show lookupA ((pathsOf (rows.filter (fun r => r.last_modified ≤ t))).filterMap
      (entryFor (rows.filter (fun r => r.last_modified ≤ t)))) p = some f ↔ _
    rw [lookupA_entries (rows.filter (fun r => r.last_modified ≤ t))
      (pathsOf_nodup (rows.filter (fun r => r.last_modified ≤ t))) p]
    constructor
    · intro h
      by_cases hp : p ∈ pathsOf (rows.filter (fun r => r.last_modified ≤ t))
      · rw [if_pos hp] at h
        unfold entryFor at h
        cases hch : chosenRow (rows.filter (fun r => r.last_modified ≤ t)) p with
        | none => rw [hch] at h; simp at h
        | some f0 =>
            rw [hch] at h
            simp only [Option.map_some', Option.some.injEq] at h
            subst h
            unfold chosenRow at hch
            cases hmr : maxRow ((rows.filter (fun r => r.last_modified ≤ t)).filter
                (fun r => r.path == p)) with
            | none => rw [hmr] at hch; simp at hch
            | some m =>
                rw [hmr] at hch
                dsimp only [] at hch
                by_cases hd : m.action = Action.DELETE
                · rw [if_pos hd] at hch; simp at hch
                · rw [if_neg hd] at hch
                  simp only [Option.some.injEq] at hch
                  subst hch
                  have hmg := maxRow_mem hmr
                  have hmc := (List.mem_filter.mp hmg).1
                  have hmp : m.path = p := by
                    have h2 := (List.mem_filter.mp hmg).2
                    simpa using h2
                  have hmrows : m ∈ rows := (List.mem_filter.mp hmc).1
                  have hmt : m.last_modified ≤ t := by
                    have h2 := (List.mem_filter.mp hmc).2
                    simpa using h2
                  refine ⟨hmrows, hmp, hmt, hd, ?_⟩
                  intro g hgr hgp hgt
                  have hgc : g ∈ rows.filter (fun r => r.last_modified ≤ t) :=
                    List.mem_filter.mpr ⟨hgr, by simpa using hgt⟩
                  have hgg : g ∈ (rows.filter (fun r => r.last_modified ≤ t)).filter
                      (fun r => r.path == p) :=
                    List.mem_filter.mpr ⟨hgc, by simpa using hgp⟩
                  exact maxRow_ge hmr g hgg
      · rw [if_neg hp] at h
        exact absurd h (by simp)
    · rintro ⟨hfr, hfp, hft, hfd, hmax⟩
      have hfc : f ∈ rows.filter (fun r => r.last_modified ≤ t) :=
        List.mem_filter.mpr ⟨hfr, by simpa using hft⟩
      have hp : p ∈ pathsOf (rows.filter (fun r => r.last_modified ≤ t)) :=
        pathsOf_mem.mpr ⟨f, hfc, hfp⟩
      rw [if_pos hp]
      have hfg : f ∈ (rows.filter (fun r => r.last_modified ≤ t)).filter
          (fun r => r.path == p) :=
        List.mem_filter.mpr ⟨hfc, by simpa using hfp⟩
      have hgne : (rows.filter (fun r => r.last_modified ≤ t)).filter
          (fun r => r.path == p) ≠ [] := by
        intro hnil
        rw [hnil] at hfg
        simp at hfg
      obtain ⟨m, hmr⟩ := Option.isSome_iff_exists.mp (maxRow_isSome hgne)
      have hmg := maxRow_mem hmr
      have hmc := (List.mem_filter.mp hmg).1
      have hmp : m.path = p := by
        have h2 := (List.mem_filter.mp hmg).2
        simpa using h2
      have hmrows : m ∈ rows := (List.mem_filter.mp hmc).1
      have hmt : m.last_modified ≤ t := by
        have h2 := (List.mem_filter.mp hmc).2
        simpa using h2
      have h1 : m.last_modified ≤ f.last_modified := hmax m hmrows hmp hmt
      have h2 : f.last_modified ≤ m.last_modified := maxRow_ge hmr f hfg
      have heq : m = f :=
        hnt m hmrows f hfr (by rw [hmp, hfp]) (le_antisymm h1 h2)
      subst heq
      unfold entryFor chosenRow
      rw [hmr]
      dsimp only []
      rw [if_neg hfd]
      rfl
  · intro res hres pf hpf
    have hok : searchInt t none rows = res := by
      simpa [search] using hres
    subst hok
    simp only [searchInt, stateAtInt] at hpf
    obtain ⟨p, hp, hent⟩ := List.mem_filterMap.mp hpf
    unfold entryFor at hent
    cases hch : chosenRow (rows.filter (fun r => r.last_modified ≤ t)) p with
    | none => rw [hch] at hent; simp at hent
    | some f0 =>
        rw [hch] at hent
        simp only [Option.map_some', Option.some.injEq] at hent
        unfold chosenRow at hch
        cases hmr : maxRow ((rows.filter (fun r => r.last_modified ≤ t)).filter
            (fun r => r.path == p)) with
        | none => rw [hmr] at hch; simp at hch
        | some m =>
            rw [hmr] at hch
            dsimp only [] at hch
            by_cases hd : m.action = Action.DELETE
            · rw [if_pos hd] at hch; simp at hch
            · rw [if_neg hd] at hch
              simp only [Option.some.injEq] at hch
              subst hch
              rw [← hent]
              exact hd

/-- Witness for C3 over a concrete five-event history at timestamp 10. -/
theorem C3_state_at_witness :
    (∀ r ∈ exRowsC3, ∀ s ∈ exRowsC3, r.path = s.path →
      r.last_modified = s.last_modified → r = s) ∧
    ((∀ p f, lookupA (stateAtInt 10 exRowsC3) p = some f ↔
      (f ∈ exRowsC3 ∧ f.path = p ∧ f.last_modified ≤ 10 ∧ f.action ≠ .DELETE ∧
        ∀ g ∈ exRowsC3, g.path = p → g.last_modified ≤ 10 →
          g.last_modified ≤ f.last_modified)) ∧
    (∀ res, search (.int 10) none exRowsC3 = .ok res →
      ∀ pf ∈ res, pf.2.action ≠ .DELETE)) :=
  ⟨by decide, C3_state_at 10 exRowsC3 (by decide)⟩

theorem lookupA_mem : ∀ {l : List (FsPath × File)} {p : FsPath} {f : File},
    lookupA l p = some f → (p, f) ∈ l := by
  intro l
  induction l with
  | nil => intro p f h; simp [lookupA] at h
  | cons e rest ih =>
      intro p f h
      cases e with
      | mk q g =>
          rw [lookupA_cons] at h
          by_cases hqp : q = p
          · rw [if_pos hqp] at h
            simp only [Option.some.injEq] at h
            subst hqp
            subst h
            exact List.mem_cons_self _ _
          · rw [if_neg hqp] at h
            exact List.mem_cons_of_mem _ (ih h)

/-! ### Helper lemmas on the scan loop -/

theorem keysOf_cons (a : FsPath) (g : File) (l : List (FsPath × File)) :
    keysOf ((a, g) :: l) = a :: keysOf l := rfl

theorem keysOf_insertA {q : FsPath} : ∀ {l : List (FsPath × File)} {p : FsPath} {f : File},
    q ∈ keysOf (insertA l p f) ↔ q ∈ keysOf l ∨ q = p := by
  intro l
  induction l with
  | nil => intro p f; simp [insertA, keysOf]
  | cons e rest ih =>
      intro p f
      cases e with
      | mk a g =>
          unfold insertA
          by_cases hap : a = p
          · rw [if_pos hap]
            subst hap
            simp only [keysOf_cons, List.mem_cons]
            tauto
          · rw [if_neg hap]
            simp only [keysOf_cons, List.mem_cons, ih]
            tauto

theorem removeA_sublist : ∀ (l : List (FsPath × File)) (p : FsPath),
    (removeA l p).Sublist l := by
  intro l p
  induction l with
  | nil => simp [removeA]
  | cons e rest ih =>
      cases e with
      | mk a g =>
          unfold removeA
          by_cases hap : a = p
          · rw [if_pos hap]
            exact List.Sublist.cons (a, g) (List.Sublist.refl rest)
          · rw [if_neg hap]
            exact List.Sublist.cons₂ (a, g) ih

theorem keysOf_removeA_sub {q : FsPath} {l : List (FsPath × File)} {p : FsPath}
    (h : q ∈ keysOf (removeA l p)) : q ∈ keysOf l :=
  ((removeA_sublist l p).map Prod.fst).subset h

theorem keysOf_removeA_nodup {l : List (FsPath × File)} {p : FsPath}
    (h : (keysOf l).Nodup) : (keysOf (removeA l p)).Nodup :=
  h.sublist ((removeA_sublist l p).map Prod.fst)

theorem not_mem_keysOf_removeA : ∀ {l : List (FsPath × File)} {p : FsPath},
    (keysOf l).Nodup → p ∉ keysOf (removeA l p) := by
  intro l
  induction l with
  | nil => intro p _; simp [removeA, keysOf]
  | cons e rest ih =>
      intro p hnd
      cases e with
      | mk a g =>
          rw [keysOf_cons] at hnd
          have ha : a ∉ keysOf rest := (List.nodup_cons.mp hnd).1
          have hr := (List.nodup_cons.mp hnd).2
          unfold removeA
          by_cases hap : a = p
          · rw [if_pos hap]
            subst hap
            exact ha
          · rw [if_neg hap]
            rw [keysOf_cons, List.mem_cons]
            rintro (h1 | h2)
            · exact hap h1.symm
            · exact ih hr h2

theorem lookupA_eq_none : ∀ {l : List (FsPath × File)} {p : FsPath},
    lookupA l p = none ↔ p ∉ keysOf l := by
  intro l
  induction l with
  | nil => intro p; simp [lookupA, keysOf]
  | cons e rest ih =>
      intro p
      cases e with
      | mk a g =>
          rw [lookupA_cons, keysOf_cons]
          by_cases hap : a = p
          · rw [if_pos hap]
            subst hap
            simp
          · rw [if_neg hap, ih, List.mem_cons]
            constructor
            · intro h hor
              rcases hor with h1 | h2
              · exact hap h1.symm
              · exact h h2
            · intro h h2
              exact h (Or.inr h2)

theorem scanLoop_cons_none {e : ScanEntry} {rest : List ScanEntry}
    {state : List (FsPath × File)} {cs : Changeset}
    (hl : lookupA state e.path = none) :
    scanLoop (e :: rest) state cs =
      scanLoop rest state
        { cs with added := insertA cs.added e.path (entryFile e .ADD) } := by
  conv_lhs => rw [scanLoop.eq_def]
  dsimp only []
  rw [hl]

theorem scanLoop_cons_skip {e : ScanEntry} {rest : List ScanEntry}
    {state : List (FsPath × File)} {cs : Changeset} {prev : File}
    (hl : lookupA state e.path = some prev)
    (heq : fileEq (entryFile e .ADD) prev = true) :
    scanLoop (e :: rest) state cs = scanLoop rest (removeA state e.path) cs := by
  conv_lhs => rw [scanLoop.eq_def]
  dsimp only []
  rw [hl]
  dsimp only []
  rw [if_pos heq]

theorem scanLoop_cons_content {e : ScanEntry} {rest : List ScanEntry}
    {state : List (FsPath × File)} {cs : Changeset} {prev : File}
    (hl : lookupA state e.path = some prev)
    (hne : ¬ fileEq (entryFile e .ADD) prev = true)
    (hh : e.hash ≠ archivedHash prev) :
    scanLoop (e :: rest) state cs =
      scanLoop rest (removeA state e.path)
        { cs with content := insertA cs.content e.path (entryFile e .CONTENT) } := by
  conv_lhs => rw [scanLoop.eq_def]
  dsimp only []
  rw [hl]
  dsimp only []
  rw [if_neg hne, if_pos hh]

theorem scanLoop_cons_meta {e : ScanEntry} {rest : List ScanEntry}
    {state : List (FsPath × File)} {cs : Changeset} {prev : File}
    (hl : lookupA state e.path = some prev)
    (hne : ¬ fileEq (entryFile e .ADD) prev = true)
    (hh : ¬ e.hash ≠ archivedHash prev) :
    scanLoop (e :: rest) state cs =
      scanLoop rest (removeA state e.path)
        { cs with metadata := insertA cs.metadata e.path (metaFile e prev) } := by
  conv_lhs => rw [scanLoop.eq_def]
  dsimp only []
  rw [hl]
  dsimp only []
  rw [if_neg hne, if_neg hh]

theorem scanLoop_state_sub : ∀ (entries : List ScanEntry)
    (state : List (FsPath × File)) (cs : Changeset) {q : FsPath},
    q ∈ keysOf (scanLoop entries state cs).2 → q ∈ keysOf state := by
  intro entries
  induction entries with
  | nil => intro state cs q h; exact h
  | cons e rest ih =>
      intro state cs q h
      cases hl : lookupA state e.path with
      | none =>
          rw [scanLoop_cons_none hl] at h
          exact ih _ _ h
      | some prev =>
          by_cases h1 : fileEq (entryFile e .ADD) prev = true
          · rw [scanLoop_cons_skip hl h1] at h
            exact keysOf_removeA_sub (ih _ _ h)
          · by_cases h2 : e.hash ≠ archivedHash prev
            · rw [scanLoop_cons_content hl h1 h2] at h
              exact keysOf_removeA_sub (ih _ _ h)
            · rw [scanLoop_cons_meta hl h1 h2] at h
              exact keysOf_removeA_sub (ih _ _ h)

theorem keysOf_map_delete : ∀ (l : List (FsPath × File)),
    keysOf (l.map (fun pf => (pf.1, { pf.2 with id := none, action := Action.DELETE })))
      = keysOf l := by
  intro l
  induction l with
  | nil => rfl
  | cons e rest ih =>
      cases e with
      | mk a g =>
          rw [List.map_cons, keysOf_cons, keysOf_cons, ih]

theorem scanLoop_inv : ∀ (entries : List ScanEntry) (state : List (FsPath × File))
    (cs : Changeset),
    (entries.map ScanEntry.path).Nodup →
    (keysOf state).Nodup →
    ScanInv cs state →
    (∀ e ∈ entries, e.path ∉ keysOf cs.added ∧ e.path ∉ keysOf cs.content ∧
      e.path ∉ keysOf cs.metadata) →
    ScanInv (scanLoop entries state cs).1 (scanLoop entries state cs).2 ∧
      ∀ e ∈ entries, e.path ∉ keysOf (scanLoop entries state cs).2 := by
  intro entries
  induction entries with
  | nil =>
      intro state cs hnd hst hinv hent
      exact ⟨hinv, by intro e2 h2; simp at h2⟩
  | cons e rest ih =>
      intro state cs hnd hst hinv hent
      rw [List.map_cons, List.nodup_cons] at hnd
      obtain ⟨hepath, hndr⟩ := hnd
      obtain ⟨hanc, hacm, hccm, has, hcs, hms⟩ := hinv
      have hentE := hent e (List.mem_cons_self e rest)
      have hentR := fun e2 h2 => hent e2 (List.mem_cons_of_mem e h2)
      have hner : ∀ e2 ∈ rest, e2.path ≠ e.path := by
        intro e2 h2 heq2
        exact hepath (heq2 ▸ List.mem_map_of_mem ScanEntry.path h2)
      cases hl : lookupA state e.path with
      | none =>
          rw [scanLoop_cons_none hl]
          have hnotstate : e.path ∉ keysOf state := lookupA_eq_none.mp hl
          have hinv2 :
              ScanInv { cs with added := insertA cs.added e.path (entryFile e .ADD) }
                state := by
            refine ⟨?_, ?_, hccm, ?_, hcs, hms⟩
            · intro p hp
              rcases keysOf_insertA.mp hp with h3 | h3
              · exact hanc p h3
              · subst h3; exact hentE.2.1
            · intro p hp
              rcases keysOf_insertA.mp hp with h3 | h3
              · exact hacm p h3
              · subst h3; exact hentE.2.2
            · intro p hp
              rcases keysOf_insertA.mp hp with h3 | h3
              · exact has p h3
              · subst h3; exact hnotstate
          have hent2 : ∀ e2 ∈ rest,
              e2.path ∉ keysOf (insertA cs.added e.path (entryFile e .ADD)) ∧
              e2.path ∉ keysOf cs.content ∧ e2.path ∉ keysOf cs.metadata := by
            intro e2 h2
            refine ⟨?_, (hentR e2 h2).2.1, (hentR e2 h2).2.2⟩
            intro hmem
            rcases keysOf_insertA.mp hmem with h3 | h3
            · exact (hentR e2 h2).1 h3
            · exact hner e2 h2 h3
          obtain ⟨hi, hrest⟩ := ih state _ hndr hst hinv2 hent2
          refine ⟨hi, ?_⟩
          intro e2 h2
          rcases List.mem_cons.mp h2 with h3 | h3
          · subst h3
            intro hmem
            exact hnotstate (scanLoop_state_sub rest state _ hmem)
          · exact hrest e2 h3
      | some prev =>
          have hnotafter : e.path ∉ keysOf (removeA state e.path) :=
            not_mem_keysOf_removeA hst
          have hst1 : (keysOf (removeA state e.path)).Nodup := keysOf_removeA_nodup hst
          have hsub : ∀ {X : List (FsPath × File)}, disjointK X state →
              disjointK X (removeA state e.path) :=
            fun hX p hp hmem => hX p hp (keysOf_removeA_sub hmem)
          by_cases h1 : fileEq (entryFile e .ADD) prev = true
          · rw [scanLoop_cons_skip hl h1]
            have hinv2 : ScanInv cs (removeA state e.path) :=
              ⟨hanc, hacm, hccm, hsub has, hsub hcs, hsub hms⟩
            obtain ⟨hi, hrest⟩ := ih _ _ hndr hst1 hinv2 hentR
            refine ⟨hi, ?_⟩
            intro e2 h2
            rcases List.mem_cons.mp h2 with h3 | h3
            · subst h3
              intro hmem
              exact hnotafter (scanLoop_state_sub rest _ _ hmem)
            · exact hrest e2 h3
          · by_cases h2 : e.hash ≠ archivedHash prev
            · rw [scanLoop_cons_content hl h1 h2]
              have hinv2 :
                  ScanInv
                    { cs with content := insertA cs.content e.path (entryFile e .CONTENT) }
                    (removeA state e.path) := by
                refine ⟨?_, hacm, ?_, hsub has, ?_, hsub hms⟩
                · intro p hp hmem
                  rcases keysOf_insertA.mp hmem with h3 | h3
                  · exact hanc p hp h3
                  · subst h3; exact hentE.1 hp
                · intro p hp
                  rcases keysOf_insertA.mp hp with h3 | h3
                  · exact hccm p h3
                  · subst h3; exact hentE.2.2
                · intro p hp
                  rcases keysOf_insertA.mp hp with h3 | h3
                  · exact hsub hcs p h3
                  · subst h3; exact hnotafter
              have hent2 : ∀ e2 ∈ rest, e2.path ∉ keysOf cs.added ∧
                  e2.path ∉ keysOf (insertA cs.content e.path (entryFile e .CONTENT)) ∧
                  e2.path ∉ keysOf cs.metadata := by
                intro e2 h2m
                refine ⟨(hentR e2 h2m).1, ?_, (hentR e2 h2m).2.2⟩
                intro hmem
                rcases keysOf_insertA.mp hmem with h3 | h3
                · exact (hentR e2 h2m).2.1 h3
                · exact hner e2 h2m h3
              obtain ⟨hi, hrest⟩ := ih _ _ hndr hst1 hinv2 hent2
              refine ⟨hi, ?_⟩
              intro e2 h2m
              rcases List.mem_cons.mp h2m with h3 | h3
              · subst h3
                intro hmem
                exact hnotafter (scanLoop_state_sub rest _ _ hmem)
              · exact hrest e2 h3
            · rw [scanLoop_cons_meta hl h1 h2]
              have hinv2 :
                  ScanInv
                    { cs with metadata := insertA cs.metadata e.path (metaFile e prev) }
                    (removeA state e.path) := by
                refine ⟨hanc, ?_, ?_, hsub has, hsub hcs, ?_⟩
                · intro p hp hmem
                  rcases keysOf_insertA.mp hmem with h3 | h3
                  · exact hacm p hp h3
                  · subst h3; exact hentE.1 hp
                · intro p hp hmem
                  rcases keysOf_insertA.mp hmem with h3 | h3
                  · exact hccm p hp h3
                  · subst h3; exact hentE.2.1 hp
                · intro p hp
                  rcases keysOf_insertA.mp hp with h3 | h3
                  · exact hsub hms p h3
                  · subst h3; exact hnotafter
              have hent2 : ∀ e2 ∈ rest, e2.path ∉ keysOf cs.added ∧
                  e2.path ∉ keysOf cs.content ∧
                  e2.path ∉ keysOf (insertA cs.metadata e.path (metaFile e prev)) := by
                intro e2 h2m
                refine ⟨(hentR e2 h2m).1, (hentR e2 h2m).2.1, ?_⟩
                intro hmem
                rcases keysOf_insertA.mp hmem with h3 | h3
                · exact (hentR e2 h2m).2.2 h3
                · exact hner e2 h2m h3
              obtain ⟨hi, hrest⟩ := ih _ _ hndr hst1 hinv2 hent2
              refine ⟨hi, ?_⟩
              intro e2 h2m
              rcases List.mem_cons.mp h2m with h3 | h3
              · subst h3
                intro hmem
                exact hnotafter (scanLoop_state_sub rest _ _ hmem)
              · exact hrest e2 h3

/-- C4 counterexample: when overlapping includes make the walk enumerate
the same regular file `/a` twice, the first visit classifies it as a
content change and the second — the path having been popped from the
state — re-classifies it as added, so `/a` ends up in both
`changeset.content` and `changeset.added`: the four mappings are not
pairwise disjoint and the path is in two categories. -/
theorem C4_counterexample :
    keysOf exScanDup.added = [["a"]] ∧ keysOf exScanDup.content = [["a"]] ∧
      ¬ disjointK exScanDup.added exScanDup.content :=
  ⟨by decide, by decide, fun h => h ["a"] (by decide) (by decide)⟩

/-- C4 (amended): provided the walk enumerates each regular-file path at
most once (the spec's own caveat: callers should not specify overlapping
includes) and the prior state has no duplicate keys, the four mappings of
the resulting changeset have pairwise disjoint key sets, and no
enumerated path ends up in `deleted` — so every enumerated path lands in
exactly one of {ignored-unchanged, added, content, metadata, deleted},
where ignored-unchanged means membership in none of the four. -/
theorem C4_scan_partition (entries : List ScanEntry) (state0 : List (FsPath × File))
    (hnd : (entries.map ScanEntry.path).Nodup)
    (hst : (keysOf state0).Nodup) :
    (disjointK (scan entries state0).added (scan entries state0).content ∧
     disjointK (scan entries state0).added (scan entries state0).metadata ∧
     disjointK (scan entries state0).added (scan entries state0).deleted ∧
     disjointK (scan entries state0).content (scan entries state0).metadata ∧
     disjointK (scan entries state0).content (scan entries state0).deleted ∧
     disjointK (scan entries state0).metadata (scan entries state0).deleted) ∧
    (∀ e ∈ entries, e.path ∉ keysOf (scan entries state0).deleted) := by
  have hinv0 : ScanInv {} state0 := by
    refine ⟨?_, ?_, ?_, ?_, ?_, ?_⟩ <;> intro p hp <;> simp [keysOf] at hp
  have hent0 : ∀ e ∈ entries, e.path ∉ keysOf (Changeset.added {}) ∧
      e.path ∉ keysOf (Changeset.content {}) ∧
      e.path ∉ keysOf (Changeset.metadata {}) := by
    intro e2 h2
    refine ⟨?_, ?_, ?_⟩ <;> simp [keysOf]
  obtain ⟨⟨hanc, hacm, hccm, has, hcs, hms⟩, hrest⟩ :=
    scanLoop_inv entries state0 {} hnd hst hinv0 hent0
  have hsa : (scan entries state0).added = (scanLoop entries state0 {}).1.added := rfl
  have hsc : (scan entries state0).content = (scanLoop entries state0 {}).1.content := rfl
  have hsm : (scan entries state0).metadata = (scanLoop entries state0 {}).1.metadata := rfl
  have hsd : (scan entries state0).deleted = (scanLoop entries state0 {}).2.map
      (fun pf => (pf.1, { pf.2 with id := none, action := Action.DELETE })) := rfl
  have hkd : keysOf (scan entries state0).deleted =
      keysOf (scanLoop entries state0 {}).2 := by
    rw [hsd, keysOf_map_delete]
  refine ⟨⟨?_, ?_, ?_, ?_, ?_, ?_⟩, ?_⟩
  · rw [hsa, hsc]; exact hanc
  · rw [hsa, hsm]; exact hacm
  · intro p hp hmem
    rw [hkd] at hmem
    rw [hsa] at hp
    exact has p hp hmem
  · rw [hsc, hsm]; exact hccm
  · intro p hp hmem
    rw [hkd] at hmem
    rw [hsc] at hp
    exact hcs p hp hmem
  · intro p hp hmem
    rw [hkd] at hmem
    rw [hsm] at hp
    exact hms p hp hmem
  · intro e2 h2
    rw [hkd]
    exact hrest e2 h2

/-- Witness for C4 at a concrete two-entry scan against a one-row
state. -/
theorem C4_scan_partition_witness :
    (([exEntryA, exEntryB].map ScanEntry.path).Nodup ∧
      (keysOf [(["a"], exFilePrev)]).Nodup) ∧
    ((disjointK (scan [exEntryA, exEntryB] [(["a"], exFilePrev)]).added
        (scan [exEntryA, exEntryB] [(["a"], exFilePrev)]).content ∧
      disjointK (scan [exEntryA, exEntryB] [(["a"], exFilePrev)]).added
        (scan [exEntryA, exEntryB] [(["a"], exFilePrev)]).metadata ∧
      disjointK (scan [exEntryA, exEntryB] [(["a"], exFilePrev)]).added
        (scan [exEntryA, exEntryB] [(["a"], exFilePrev)]).deleted ∧
      disjointK (scan [exEntryA, exEntryB] [(["a"], exFilePrev)]).content
        (scan [exEntryA, exEntryB] [(["a"], exFilePrev)]).metadata ∧
      disjointK (scan [exEntryA, exEntryB] [(["a"], exFilePrev)]).content
        (scan [exEntryA, exEntryB] [(["a"], exFilePrev)]).deleted ∧
      disjointK (scan [exEntryA, exEntryB] [(["a"], exFilePrev)]).metadata
        (scan [exEntryA, exEntryB] [(["a"], exFilePrev)]).deleted) ∧
     (∀ e ∈ [exEntryA, exEntryB],
        e.path ∉ keysOf (scan [exEntryA, exEntryB] [(["a"], exFilePrev)]).deleted)) :=
  ⟨⟨by decide, by decide⟩,
    C4_scan_partition [exEntryA, exEntryB] [(["a"], exFilePrev)] (by decide) (by decide)⟩

/-- C6 counterexample: the single history row is `/a/x`, so the pattern
`/a` matches exactly one path in the state, and the destination `/out`
is a directory; the claim then places the file at `/out/a…`, but the
code leaves the destination unchanged (the pattern's own path `/a` is
not a key of the state) and writes `/out/x`. -/
theorem C6_counterexample :
    ((searchInt 10 (some ["a"]) [exFileAX]).map Prod.fst = [["a", "x"]]) ∧
    restore (.int 10) [exFileAX] (some ["a"]) ["out"] true false =
      .ok [(["a", "x"], ["out", "x"])] ∧
    (["out", "x"] : FsPath) ≠ ["out"] ++ [basename ["a"]] :=
  ⟨by decide, by rfl, by decide⟩

/-- C6 (amended): in `restore`, the destination is extended with the
pattern's final component exactly when the pattern's own path is a key
of the (pattern-filtered) state and the destination is an existing
directory — the file recorded at the pattern's path is then restored to
`D/basename(P)`; in every other case the destination is used unchanged
as the base of every target path. -/
theorem C6_restore_destination (t : Int) (rows : List File) (ap dest : FsPath)
    (destIsDir missing_ok : Bool) :
    (∀ f, lookupA (searchInt t (some ap) rows) ap = some f → destIsDir = true →
      ∀ res, restore (.int t) rows (some ap) dest destIsDir missing_ok = .ok res →
        (ap, dest ++ [basename ap]) ∈ res) ∧
    (((lookupA (searchInt t (some ap) rows) ap).isSome && destIsDir) = false →
      ∀ res, restore (.int t) rows (some ap) dest destIsDir missing_ok = .ok res →
        ∀ pf ∈ res, pf.2 = dest ++ pf.1.drop ap.length) := by
  constructor
  · intro f hf hdir res hres
    simp only [restore] at hres
    rw [hf] at hres
    subst hdir
    simp only [Option.isSome_some, Bool.and_true, if_true] at hres
    have hmem : (ap, f) ∈ searchInt t (some ap) rows := lookupA_mem hf
    have hentry : (ap, dest ++ [basename ap]) ∈
        (searchInt t (some ap) rows).filterMap (fun pf =>
          if ap == pf.1 || (parents pf.1).contains ap then
            some (pf.1, (dest ++ [basename ap]) ++ pf.1.drop ap.length)
          else none) := by
      refine List.mem_filterMap.mpr ⟨(ap, f), hmem, ?_⟩
      rw [if_pos (by simp)]
      simp [List.drop_length]
    split at hres
    · exact absurd hres (by simp)
    · rw [Except.ok.injEq] at hres
      subst hres
      exact hentry
  · intro hcond res hres
    simp only [restore] at hres
    rw [hcond] at hres
    simp only [Bool.false_eq_true, if_false] at hres
    split at hres
    · exact absurd hres (by simp)
    · rw [Except.ok.injEq] at hres
      subst hres
      intro pf hpf
      obtain ⟨x, hx, hfx⟩ := List.mem_filterMap.mp hpf
      by_cases hm : (ap == x.1 || (parents x.1).contains ap) = true
      · rw [if_pos hm] at hfx
        simp only [Option.some.injEq] at hfx
        subst hfx
        rfl
      · rw [if_neg hm] at hfx
        exact absurd hfx (by simp)

/-- Witness for C6: with the single-row history at `/a` itself, the
pattern `/a` is a key of the state and the destination is a directory,
so the file is restored to `/out/a`. -/
theorem C6_restore_destination_witness :
    (lookupA (searchInt 10 (some ["a"]) [exFile1]) ["a"] = some exFile1 ∧
      restore (.int 10) [exFile1] (some ["a"]) ["out"] true false =
        .ok [(["a"], ["out", "a"])]) ∧
    ((["a"], ["out", "a"]) : FsPath × FsPath) ∈ [((["a"], ["out", "a"]) : FsPath × FsPath)] :=
  ⟨⟨by decide, by rfl⟩,
    (C6_restore_destination 10 [exFile1] ["a"] ["out"] true false).1 exFile1
      (by decide) rfl [(["a"], ["out", "a"])] (by rfl)⟩

/-- C9: `State.at` and `restore` reject a non-integer timestamp with the
`BadTimestamp` error (a `ValueError` in the source) regardless of the
index contents — no state is read and nothing is restored — while for an
integer timestamp neither ever produces that error: `State.at` always
succeeds, and `restore` either succeeds or fails with `NotFound` or
`ArchiveEmpty`. -/
theorem C9_bad_timestamp :
    (∀ s rows, StateAt (.datetime s) rows = .error .badTimestamp) ∧
    (∀ s rows pat dest destIsDir missing_ok,
      restore (.datetime s) rows pat dest destIsDir missing_ok =
        .error .badTimestamp) ∧
    (∀ t rows, StateAt (.int t) rows = .ok (stateAtInt t rows)) ∧
    (∀ t rows pat dest destIsDir missing_ok,
      (∃ res, restore (.int t) rows pat dest destIsDir missing_ok = .ok res) ∨
      restore (.int t) rows pat dest destIsDir missing_ok = .error .notFound ∨
      restore (.int t) rows pat dest destIsDir missing_ok = .error .archiveEmpty) := by
  refine ⟨fun s rows => rfl, fun s rows pat dest d m => rfl,
    fun t rows => rfl, ?_⟩
  intro t rows pat dest destIsDir missing_ok
  simp only [restore]
  split
  · cases pat with
    | none => right; right; simp
    | some q => right; left; simp
  · left
    exact ⟨_, rfl⟩

/-! ### Crypto and storage lemmas -/

theorem encBody_length (password : List Byte) : ∀ (i : Nat) (l : List Byte),
    (encBody password i l).length = l.length := by
  intro i l
  induction l generalizing i with
  | nil => rfl
  | cons b rest ih => simp [encBody, ih]

theorem decBody_encBody (password : List Byte) : ∀ (i : Nat) (l : List Byte),
    decBody password i (encBody password i l) = l := by
  intro i l
  induction l generalizing i with
  | nil => rfl
  | cons b rest ih =>
      simp only [encBody, decBody, ih]
      rw [add_sub_cancel_right]

/-- C10 (spec-modelled: `pyAesCrypt.encryptStream`/`decryptStream` are
third-party code, not part of this repository): decrypting the output of
`encrypt(b, p)` with password `p` and the ciphertext length as
`src_size` yields exactly `b`. -/
theorem C10_roundtrip (b p : List Byte) :
    decrypt (encrypt b p) p (encrypt b p).length = .ok b := by
  have hlen : (encBody p 0 b).length = b.length := encBody_length p 0 b
  have hmac : (macOf p b).length = 32 := by simp [macOf]
  have htotal : (encrypt b p).length = b.length + 32 := by
    simp [encrypt, encryptStream, hlen, hmac]
  unfold decrypt decryptStream
  rw [if_neg (by rw [htotal]; omega)]
  have h1 : (encrypt b p).take (encrypt b p).length = encrypt b p :=
    List.take_length _
  rw [h1]
  have h2 : (encrypt b p).length - 32 = b.length := by
    rw [htotal]
    omega
  rw [h2]
  rw [show encrypt b p = encBody p 0 b ++ macOf p b from rfl]
  dsimp only []
  rw [List.take_left' hlen, List.drop_left' hlen]
  rw [decBody_encBody]
  rw [if_pos rfl]

/-- C8: for both the base-class retrieve (used by `Local`) and the S3
retrieve, an existing restore target makes `retrieve` fail with
`FileExists` before any backend operation — the backend trace is empty,
so no `get_size`, read or availability call happened — and the local
file is left unchanged. -/
theorem C8_retrieve_file_exists (content : List Byte) (archive_id : Nat)
    (stored : Nat → List Byte) (password : List Byte) (obj : S3Object) :
    Storage.retrieve (some content) archive_id stored password =
      (some content, some .fileExists, []) ∧
    S3.retrieve (some content) obj archive_id stored password =
      (some content, some .fileExists, []) := by
  constructor
  · simp [Storage.retrieve]
  · simp [S3.retrieve]

/-- C7 (code bug): on a Glacier object with no restore metadata,
`check_is_available` — when given its `archive_id` argument — does fail
with `ObjectFrozen`; but `S3.retrieve` invokes `check_is_available()`
without the required argument, so with a fresh local path it raises
`TypeError` instead of `ObjectFrozen`, and the backend trace stays
empty: `start_s3_restore` is never called, so no thaw request for
`RESTORE_DAYS` days is issued. -/
theorem C7_retrieve_frozen :
    S3.check_is_available { storage_class := .GLACIER, restore := none } =
      .error .objectFrozen ∧
    S3.retrieve none { storage_class := .GLACIER, restore := none } 1
      (fun _ => []) [] = (none, some .typeError, []) ∧
    (S3.retrieve none { storage_class := .GLACIER, restore := none } 1
      (fun _ => []) []).2.2.all
        (fun op => op ≠ S3.start_s3_restore "path" 1) = true := by
  refine ⟨rfl, rfl, by decide⟩

/-- C5 (amended): `File.__eq__` holds iff the two files agree on `path`,
`last_modified`, `owner`, `group`, `permissions` AND `size` (which the
source lists in `_meta_fields`); no other attribute — in particular not
the content hash — affects it. -/
theorem C5_file_equality (a b : File) :
    fileEq a b = true ↔
      a.path = b.path ∧ a.last_modified = b.last_modified ∧ a.owner = b.owner ∧
        a.group = b.group ∧ a.permissions = b.permissions ∧ a.size = b.size := by
  simp [fileEq, File.meta_fields, and_assoc]

/-- C5 counterexample: two files that agree on path, `last_modified`,
`owner`, `group` and `permissions` but differ in `size` are not equal
under `File.__eq__`, refuting the claim that equality holds iff path and
those four attributes agree. -/
theorem C5_counterexample :
    ¬ (fileEq exFile1 exFile1big = true ↔
        (exFile1.path = exFile1big.path ∧
          exFile1.last_modified = exFile1big.last_modified ∧
          exFile1.owner = exFile1big.owner ∧
          exFile1.group = exFile1big.group ∧
          exFile1.permissions = exFile1big.permissions)) := by
  decide

/-- C2: when `storage.store` fails during `File.archive` of an un-persisted
file, the call raises `ArchiveFailed`, no `File` row is inserted, and the
`Archived` row created for the file remains in the table with its hash
blanked (a poison tombstone) rather than being deleted. -/
theorem C2_archive_store_failure (f : File) (hashOf : FsPath → String)
    (storeOk : FsPath → Bool) (db : Db)
    (hid : f.id = none) (hfail : storeOk f.path = false) :
    (File.archive f hashOf storeOk db).2 = some .archiveFailed ∧
    (File.archive f hashOf storeOk db).1.file_rows = db.file_rows ∧
    (File.archive f hashOf storeOk db).1.archived_rows =
      db.archived_rows ++ [{ id := db.next_archived_id, hash := "", size := f.size }] := by
  simp [File.archive, hid, hfail]

/-- Witness for C2 at a concrete file, database and failing backend. -/
theorem C2_archive_store_failure_witness :
    (exFile1.id = none ∧ (fun _ : FsPath => false) exFile1.path = false) ∧
    ((File.archive exFile1 exHash (fun _ => false) {}).2 = some .archiveFailed ∧
     (File.archive exFile1 exHash (fun _ => false) {}).1.file_rows = Db.file_rows {} ∧
     (File.archive exFile1 exHash (fun _ => false) {}).1.archived_rows =
       Db.archived_rows {} ++
         [{ id := Db.next_archived_id {}, hash := "", size := exFile1.size }]) :=
  ⟨⟨rfl, rfl⟩, C2_archive_store_failure exFile1 exHash (fun _ => false) {} rfl rfl⟩

/-- C1 counterexample: a changeset with two added files where archiving
the first fails. `Changeset.commit` stops with the error: no `File` row
is ever inserted, the reporter trace holds only the "archiving" start
event for the first file (the failure is never reported and the second
file is never mentioned), even though storing the second file would have
succeeded. This refutes the claim that the commit proceeds past a
per-file `archive` failure. -/
theorem C1_counterexample :
    (exChangeset.commit exHash exStoreFailA {}).2.2 = some .archiveFailed ∧
    (exChangeset.commit exHash exStoreFailA {}).1.file_rows = [] ∧
    (exChangeset.commit exHash exStoreFailA {}).2.1 = [.start "/a" "archiving"] ∧
    exStoreFailA exFile2.path = true := by
  decide

theorem commitArchiveLoop_cons_ok {hashOf : FsPath → String} {storeOk : FsPath → Bool}
    {g : File} {fs : List File} {db : Db} {events : List RepEvent}
    (hid : g.id = none) (hok : storeOk g.path = true) :
    commitArchiveLoop hashOf storeOk (g :: fs) db events =
      commitArchiveLoop hashOf storeOk fs (File.archive g hashOf storeOk db).1
        (events ++ [.start (pathStr g.path) "archiving",
          .complete (pathStr g.path) "archived"]) := by
  have harch : (File.archive g hashOf storeOk db).2 = none := by
    simp [File.archive, hid, hok]
  conv_lhs => rw [commitArchiveLoop.eq_def]
  dsimp only []
  rw [harch]
  rw [List.append_assoc]
  rfl

theorem commitArchiveLoop_cons_fail {hashOf : FsPath → String} {storeOk : FsPath → Bool}
    {f : File} {fs : List File} {db : Db} {events : List RepEvent}
    (hid : f.id = none) (hfail : storeOk f.path = false) :
    commitArchiveLoop hashOf storeOk (f :: fs) db events =
      ((File.archive f hashOf storeOk db).1,
        events ++ [.start (pathStr f.path) "archiving"], some .archiveFailed) := by
  have harch : (File.archive f hashOf storeOk db).2 = some .archiveFailed := by
    simp [File.archive, hid, hfail]
  conv_lhs => rw [commitArchiveLoop.eq_def]
  dsimp only []
  rw [harch]

theorem commitArchiveLoop_aborts (hashOf : FsPath → String) (storeOk : FsPath → Bool) :
    ∀ (done : List File) (f : File) (rest : List File) (db : Db)
      (events : List RepEvent),
    (∀ g ∈ done, g.id = none ∧ storeOk g.path = true) →
    f.id = none → storeOk f.path = false →
    commitArchiveLoop hashOf storeOk (done ++ f :: rest) db events =
      ((File.archive f hashOf storeOk (archiveAll hashOf storeOk done db)).1,
        events ++ archiveEvents done ++ [.start (pathStr f.path) "archiving"],
        some .archiveFailed) := by
  intro done
  induction done with
  | nil =>
      intro f rest db events hdone hid hfail
      rw [List.nil_append, commitArchiveLoop_cons_fail hid hfail]
      simp [archiveAll, archiveEvents]
  | cons g done ih =>
      intro f rest db events hdone hid hfail
      have hg := hdone g (List.mem_cons_self g done)
      rw [List.cons_append, commitArchiveLoop_cons_ok hg.1 hg.2]
      rw [ih f rest _ _ (fun g2 h2 => hdone g2 (List.mem_cons_of_mem g h2)) hid hfail]
      simp [archiveAll, archiveEvents, List.append_assoc]

/-- C1 (amended): if `File.archive` raises for any one file during
`Changeset.commit` — the files before it in `added ∪ content` having
archived cleanly — the commit aborts at that file: the error propagates
to the caller; the reporter trace is exactly the metadata/delete events,
the start/complete pairs of the earlier files, and the failing file's
"archiving" start (so the failure itself is never reported and the
remaining files are never mentioned); the remaining files are never
processed; and the failing file's archive inserts no `File` row. -/
theorem C1_commit_aborts (cs : Changeset) (hashOf : FsPath → String)
    (storeOk : FsPath → Bool) (db : Db) (done : List File) (f : File)
    (rest : List File)
    (h : cs.added.map Prod.snd ++ cs.content.map Prod.snd = done ++ f :: rest)
    (hdone : ∀ g ∈ done, g.id = none ∧ storeOk g.path = true)
    (hid : f.id = none) (hfail : storeOk f.path = false) :
    cs.commit hashOf storeOk db =
      ((File.archive f hashOf storeOk
          (archiveAll hashOf storeOk done (commitStep1 cs db).1)).1,
        (commitStep1 cs db).2 ++ archiveEvents done ++
          [.start (pathStr f.path) "archiving"],
        some .archiveFailed) ∧
    (File.archive f hashOf storeOk
        (archiveAll hashOf storeOk done (commitStep1 cs db).1)).1.file_rows =
      (archiveAll hashOf storeOk done (commitStep1 cs db).1).file_rows := by
  constructor
  · unfold Changeset.commit
    rw [h]
    exact commitArchiveLoop_aborts hashOf storeOk done f rest
      (commitStep1 cs db).1 (commitStep1 cs db).2 hdone hid hfail
  · simp [File.archive, hid, hfail]

/-- Witness for C1 at the concrete two-file changeset, with the failure
at the second file: the first file archives cleanly, then the commit
aborts mid-loop. -/
theorem C1_commit_aborts_witness :
    (exChangeset.added.map Prod.snd ++ exChangeset.content.map Prod.snd =
        [exFile1] ++ exFile2 :: [] ∧
      (∀ g ∈ [exFile1], g.id = none ∧ exStoreFailB g.path = true) ∧
      exFile2.id = none ∧ exStoreFailB exFile2.path = false) ∧
    (exChangeset.commit exHash exStoreFailB {} =
      ((File.archive exFile2 exHash exStoreFailB
          (archiveAll exHash exStoreFailB [exFile1] (commitStep1 exChangeset {}).1)).1,
        (commitStep1 exChangeset {}).2 ++ archiveEvents [exFile1] ++
          [.start (pathStr exFile2.path) "archiving"],
        some .archiveFailed) ∧
     (File.archive exFile2 exHash exStoreFailB
        (archiveAll exHash exStoreFailB [exFile1] (commitStep1 exChangeset {}).1)).1.file_rows =
       (archiveAll exHash exStoreFailB [exFile1] (commitStep1 exChangeset {}).1).file_rows) :=
  ⟨⟨rfl, by decide, rfl, rfl⟩,
    C1_commit_aborts exChangeset exHash exStoreFailB {} [exFile1] exFile2 []
      rfl (by decide) rfl rfl⟩

end Serac

